import Mathlib

/-!
Verification of the rafl / spaint specification claims against a shallow
embedding of the repository's code.

Covered source:
- modules/rafl/include/rafl/base/ProbabilityMassFunction.h
  (PMF construction from a histogram, entropy computation);
- the example-store reservoir described in the specification (its
  implementation file is not part of the sources available here);
- spaint ImageProcessor_Shared.h pixel helpers
  (calculate_pixel_depth_difference, copy_af_pixel_to_itm,
  copy_itm_pixel_to_af, set_pixel_on_threshold).

Machine floats are idealised as exact rationals, float log2 as the real
logarithm in base 2; labels are idealised as naturals, and the std map
underlying a histogram or a PMF as its ordered association list.
-/

/-- Modelled from the spec: rafl's Histogram type (Histogram.h, not among
the available sources), as consumed by the PMF constructor: an ordered association list of (label, bin count) pairs
standing for the std map returned by get_bins, together with the total
count returned by get_count.  The spec invariant says the bin counts sum
to the total count. -/
structure Histogram where
  bins : List (Nat × Nat)
  count : Nat
deriving DecidableEq, Repr

/-- The sum of the per-label bin counts of a histogram. -/
def countSum (h : Histogram) : Nat :=
  (h.bins.map (fun b => b.2)).sum

/-- The epsilon below which the PMF constructor's assertion fires
(SMALL_EPSILON = 1e-9f in ProbabilityMassFunction.h). -/
def SMALL_EPSILON : ℚ := 1 / 1000000000

/-- A probability mass function over labels: the m_masses member of
rafl's ProbabilityMassFunction, as an ordered association list. -/
structure ProbabilityMassFunction where
  masses : List (Nat × ℚ)
deriving DecidableEq, Repr

/-- The loop of the ProbabilityMassFunction constructor: for each bin,
divide its count by the histogram count to obtain the mass, and fail
(assert in the C++ source) whenever a mass falls below SMALL_EPSILON. -/
def computeMasses (count : Nat) : List (Nat × Nat) → Option (List (Nat × ℚ))
  | [] => some []
  | bin :: rest =>
    let mass : ℚ := (bin.2 : ℚ) / (count : ℚ)
    if SMALL_EPSILON ≤ mass then
      (computeMasses count rest).map (fun ms => (bin.1, mass) :: ms)
    else
      none

/-- The ProbabilityMassFunction constructor taking a histogram: builds the
masses, returning none when the assertion fails. -/
def makePMF (histogram : Histogram) : Option ProbabilityMassFunction :=
  (computeMasses histogram.count histogram.bins).map ProbabilityMassFunction.mk

/-- The total mass of a PMF (not a member of the C++ class; used to state
normalisation). -/
def massSum (pmf : ProbabilityMassFunction) : ℚ :=
  (pmf.masses.map (fun x => x.2)).sum

/-- ProbabilityMassFunction::calculate_entropy: accumulates
mass * log2 mass over the masses, skipping non-positive masses, and
returns the negation. -/
noncomputable def calculate_entropy (pmf : ProbabilityMassFunction) : ℝ :=
  -((pmf.masses.map
      (fun x => if (0 : ℚ) < x.2 then (x.2 : ℝ) * Real.logb 2 (x.2 : ℝ) else 0)).sum)

/-- The term the entropy loop adds for one mass. -/
noncomputable def entropyTerm (m : ℚ) : ℝ :=
  if (0 : ℚ) < m then (m : ℝ) * Real.logb 2 (m : ℝ) else 0

/-- Modelled from the spec: the Example Store (reservoir) of section 4.2,
whose implementation file is not among the available sources.  Fixed
capacity maxSize (the K of the spec), the current examples, and
seenBeyond, the number of examples seen so far beyond the first K. -/
structure ExampleReservoir (α : Type) where
  maxSize : Nat
  examples : List α
  seenBeyond : Nat

/-- Modelled from the spec: add(example).  If the current size is below
the capacity, append; otherwise the incoming example is the (K + n)-th
seen, and a uniformly random draw from 0, ..., K + n - 1 (passed
explicitly, reduced by the modulus) replaces slot draw when draw < K,
realising replacement probability K / (K + n). -/
def ExampleReservoir.add {α : Type} (r : ExampleReservoir α) (x : α) (draw : Nat) :
    ExampleReservoir α :=
  if r.examples.length < r.maxSize then
    ExampleReservoir.mk r.maxSize (r.examples ++ [x]) r.seenBeyond
  else
    let n := r.seenBeyond + 1
    let slot := draw % (r.maxSize + n)
    if slot < r.maxSize then
      ExampleReservoir.mk r.maxSize (r.examples.set slot x) n
    else
      ExampleReservoir.mk r.maxSize r.examples n

/-- The slot replaced by one add call, if any: none when the reservoir is
still filling (an append happens) or when the draw declines replacement. -/
def replacedSlot {α : Type} (r : ExampleReservoir α) (draw : Nat) : Option Nat :=
  if r.examples.length < r.maxSize then none
  else
    let n := r.seenBeyond + 1
    let slot := draw % (r.maxSize + n)
    if slot < r.maxSize then some slot else none

/-- Folding a stream of (example, random draw) pairs through add. -/
def addMany {α : Type} (r : ExampleReservoir α) (inputs : List (α × Nat)) :
    ExampleReservoir α :=
  inputs.foldl (fun acc p => acc.add p.1 p.2) r

/-- ImageProcessor_Shared.h, calculate_pixel_depth_difference: images are
modelled as functions from indices to exact pixel values; the single
write of the C++ body becomes a Function.update of the output image at
the transposed (column-major) index. -/
def calculate_pixel_depth_difference (rowMajorIndex : Nat)
    (firstInputData secondInputData : Nat → ℚ) (width height : Nat)
    (outputData : Nat → ℚ) : Nat → ℚ :=
  let row := rowMajorIndex / width
  let col := rowMajorIndex % width
  let columnMajorIndex := col * height + row
  let firstPixel := firstInputData rowMajorIndex
  let secondPixel := secondInputData rowMajorIndex
  Function.update outputData columnMajorIndex
    (if 0 ≤ firstPixel ∧ 0 ≤ secondPixel then |firstPixel - secondPixel| else -1)

/-- ImageProcessor_Shared.h, single-channel copy_af_pixel_to_itm: reads the
column-major pixel of the input and writes it at the corresponding
row-major index of the output. -/
def copy_af_pixel_to_itm {α : Type} (columnMajorIndex : Nat) (inputData : Nat → α)
    (width height : Nat) (outputData : Nat → α) : Nat → α :=
  let row := columnMajorIndex % height
  let col := columnMajorIndex / height
  let rowMajorIndex := row * width + col
  Function.update outputData rowMajorIndex (inputData columnMajorIndex)

/-- ImageProcessor_Shared.h, single-channel copy_itm_pixel_to_af: reads the
row-major pixel of the input and writes it at the corresponding
column-major index of the output. -/
def copy_itm_pixel_to_af {α : Type} (rowMajorIndex : Nat) (inputData : Nat → α)
    (width height : Nat) (outputData : Nat → α) : Nat → α :=
  let row := rowMajorIndex / width
  let col := rowMajorIndex % width
  let columnMajorIndex := col * height + row
  Function.update outputData columnMajorIndex (inputData rowMajorIndex)

/-- Copying a whole width-by-height ITM image to an AF image: one
copy_itm_pixel_to_af call per row-major index, as the ImageProcessor
kernels do. -/
def copy_itm_to_af {α : Type} (width height : Nat) (inputData outputData : Nat → α) :
    Nat → α :=
  (List.range (width * height)).foldl
    (fun out i => copy_itm_pixel_to_af i inputData width height out) outputData

/-- Copying a whole width-by-height AF image to an ITM image: one
copy_af_pixel_to_itm call per column-major index. -/
def copy_af_to_itm {α : Type} (width height : Nat) (inputData outputData : Nat → α) :
    Nat → α :=
  (List.range (width * height)).foldl
    (fun out j => copy_af_pixel_to_itm j inputData width height out) outputData

/-- Modelled from the spec: the first of the two enumerators of
ImageProcessor's ComparisonOperator (declared in ImageProcessor.h, which
is not among the available sources), as the integer values a C++ enum
gives consecutive enumerators starting from 0.  Other integer values
correspond to the default branch of the switch. -/
def CO_GREATER : Nat := 0

/-- Modelled from the spec: the CO_LESS enumerator of
ImageProcessor's ComparisonOperator. -/
def CO_LESS : Nat := 1

/-- ImageProcessor_Shared.h, set_pixel_on_threshold: the switch on the
comparison operator becomes an if chain on the operator's integer value;
the default branch writes nothing. -/
def set_pixel_on_threshold (pixelIndex : Nat) (inputData : Nat → ℚ) (op : Nat)
    (threshold value : ℚ) (outputData : Nat → ℚ) : Nat → ℚ :=
  let input := inputData pixelIndex
  if op = CO_GREATER then
    Function.update outputData pixelIndex (if threshold < input then value else input)
  else if op = CO_LESS then
    Function.update outputData pixelIndex (if input < threshold then value else input)
  else
    outputData

lemma computeMasses_eq_some (count : Nat) (bins : List (Nat × Nat))
    (h : ∀ bin ∈ bins, SMALL_EPSILON ≤ (bin.2 : ℚ) / (count : ℚ)) :
    computeMasses count bins
      = some (bins.map (fun b => (b.1, (b.2 : ℚ) / (count : ℚ)))) := by
  induction bins with
  | nil => rfl
  | cons b rest ih =>
    have hb := h b (List.mem_cons_self b rest)
    have hrest : ∀ bin ∈ rest, SMALL_EPSILON ≤ (bin.2 : ℚ) / (count : ℚ) :=
      fun bin hbin => h bin (List.mem_cons_of_mem b hbin)
    simp [computeMasses, hb, ih hrest]

lemma computeMasses_eq_none (count : Nat) (bins : List (Nat × Nat))
    (h : ∃ bin ∈ bins, (bin.2 : ℚ) / (count : ℚ) < SMALL_EPSILON) :
    computeMasses count bins = none := by
  induction bins with
  | nil => simp at h
  | cons b rest ih =>
    obtain ⟨bin, hmem, hlt⟩ := h
    rcases List.mem_cons.mp hmem with heq | hmemrest
    · subst heq
      simp [computeMasses, not_le.mpr hlt]
    · by_cases hb : SMALL_EPSILON ≤ (b.2 : ℚ) / (count : ℚ)
      · simp [computeMasses, hb, ih ⟨bin, hmemrest, hlt⟩]
      · simp [computeMasses, hb]

lemma massSum_mk_map (c : ℚ) (bins : List (Nat × Nat)) :
    massSum (ProbabilityMassFunction.mk (bins.map (fun b => (b.1, (b.2 : ℚ) / c))))
      = (((bins.map (fun b => b.2)).sum : ℕ) : ℚ) / c := by
  induction bins with
  | nil => simp [massSum]
  | cons b rest ih =>
    simp only [massSum, List.map_cons, List.sum_cons] at ih ⊢
    rw [ih]
    push_cast
    ring

lemma add_maxSize {α : Type} (r : ExampleReservoir α) (x : α) (d : Nat) :
    (r.add x d).maxSize = r.maxSize := by
  simp only [ExampleReservoir.add]
  split_ifs <;> rfl

lemma add_length {α : Type} (r : ExampleReservoir α) (x : α) (d : Nat) :
    (r.add x d).examples.length
      = if r.examples.length < r.maxSize then r.examples.length + 1
        else r.examples.length := by
  simp only [ExampleReservoir.add]
  split_ifs <;> simp

lemma add_seenBeyond {α : Type} (r : ExampleReservoir α) (x : α) (d : Nat) :
    (r.add x d).seenBeyond
      = if r.examples.length < r.maxSize then r.seenBeyond
        else r.seenBeyond + 1 := by
  simp only [ExampleReservoir.add]
  split_ifs <;> rfl

lemma addMany_stats {α : Type} (inputs : List (α × Nat)) (r : ExampleReservoir α)
    (hle : r.examples.length ≤ r.maxSize) :
    (addMany r inputs).maxSize = r.maxSize ∧
    (addMany r inputs).examples.length
      = min (r.examples.length + inputs.length) r.maxSize ∧
    (addMany r inputs).seenBeyond
      = r.seenBeyond + (r.examples.length + inputs.length
          - min (r.examples.length + inputs.length) r.maxSize) := by
  induction inputs generalizing r with
  | nil =>
    refine ⟨rfl, ?_, ?_⟩ <;> simp [addMany] <;> omega
  | cons p rest ih =>
    have h1 := add_maxSize r p.1 p.2
    have h2 := add_length r p.1 p.2
    have h3 := add_seenBeyond r p.1 p.2
    have hstep : addMany r (p :: rest) = addMany (r.add p.1 p.2) rest := rfl
    rw [hstep]
    have hle' : (r.add p.1 p.2).examples.length ≤ (r.add p.1 p.2).maxSize := by
      rw [h1, h2]
      split_ifs with hc <;> omega
    obtain ⟨ih1, ih2, ih3⟩ := ih (r.add p.1 p.2) hle'
    rw [h1] at ih1 ih2 ih3
    rw [h2] at ih2 ih3
    rw [h3] at ih3
    refine ⟨ih1, ?_, ?_⟩
    · rw [ih2]
      simp only [List.length_cons]
      split_ifs with hc <;> omega
    · rw [ih3]
      simp only [List.length_cons]
      split_ifs with hc <;> omega

/-- C7.  Spec-modelled reservoir sampling: from an empty store of
capacity K, adding N > K examples one at a time leaves exactly K stored
examples (bounded memory) with N - K examples counted beyond the first
K; and at any full store, one further add keeps the size at K, replaces
exactly the slot named by replacedSlot, and among the K + n equally
likely draws (n the number of examples seen beyond the first K,
including the incoming one) exactly K cause a replacement, a probability
of K / (K + n). -/
theorem c7_reservoir_bounded_and_replacement (α : Type) (K N : Nat) (hK : 0 < K)
    (hKN : K < N) (inputs : List (α × Nat)) (hlen : inputs.length = N) :
    (addMany (ExampleReservoir.mk K [] 0) inputs).examples.length = K ∧
    (addMany (ExampleReservoir.mk K [] 0) inputs).seenBeyond = N - K ∧
    (∀ (r : ExampleReservoir α) (x : α), r.maxSize = K → r.examples.length = K →
      (∀ d : Nat, (r.add x d).examples.length = K) ∧
      (∀ d : Nat, (r.add x d).examples
          = (match replacedSlot r d with
             | some i => r.examples.set i x
             | none => r.examples)) ∧
      ((Finset.range (K + (r.seenBeyond + 1))).filter
          (fun d => (replacedSlot r d).isSome)).card = K ∧
      (((Finset.range (K + (r.seenBeyond + 1))).filter
          (fun d => (replacedSlot r d).isSome)).card : ℚ)
          / (((K + (r.seenBeyond + 1) : Nat)) : ℚ)
        = (K : ℚ) / (((K + (r.seenBeyond + 1) : Nat)) : ℚ)) := by
  obtain ⟨hst1, hst2, hst3⟩ :=
    addMany_stats inputs (ExampleReservoir.mk K [] 0) (by simp)
  have e1 : (addMany (ExampleReservoir.mk K [] 0) inputs).examples.length
      = min (0 + inputs.length) K := hst2
  have e2 : (addMany (ExampleReservoir.mk K [] 0) inputs).seenBeyond
      = 0 + (0 + inputs.length - min (0 + inputs.length) K) := hst3
  refine ⟨?_, ?_, ?_⟩
  · rw [e1, hlen]
    omega
  · rw [e2, hlen]
    omega
  · intro r x hmax hlenr
    have hnotlt : ¬ (r.examples.length < r.maxSize) := by
      rw [hmax, hlenr]
      omega
    have hnotltK : ¬ (r.examples.length < K) := by
      rw [hmax] at hnotlt
      exact hnotlt
    have hcard : ((Finset.range (K + (r.seenBeyond + 1))).filter
        (fun d => (replacedSlot r d).isSome)).card = K := by
      have hfc : (Finset.range (K + (r.seenBeyond + 1))).filter
            (fun d => (replacedSlot r d).isSome)
          = (Finset.range (K + (r.seenBeyond + 1))).filter (fun d => d < K) := by
        apply Finset.filter_congr
        intro d hd
        rw [Finset.mem_range] at hd
        have hmod : d % (K + (r.seenBeyond + 1)) = d := Nat.mod_eq_of_lt hd
        by_cases hdK : d < K
        · simp [replacedSlot, hnotltK, hmax, hmod, hdK]
        · simp [replacedSlot, hnotltK, hmax, hmod, hdK]
      rw [hfc]
      have hrange : (Finset.range (K + (r.seenBeyond + 1))).filter (fun d => d < K)
          = Finset.range K := by
        ext d
        simp only [Finset.mem_filter, Finset.mem_range]
        omega
      rw [hrange, Finset.card_range]
    refine ⟨?_, ?_, hcard, by rw [hcard]⟩
    · intro d
      rw [add_length, if_neg hnotlt, hlenr]
    · intro d
      have hadd : r.add x d = (if d % (r.maxSize + (r.seenBeyond + 1)) < r.maxSize
          then ExampleReservoir.mk r.maxSize
            (r.examples.set (d % (r.maxSize + (r.seenBeyond + 1))) x)
            (r.seenBeyond + 1)
          else ExampleReservoir.mk r.maxSize r.examples (r.seenBeyond + 1)) := by
        simp only [ExampleReservoir.add, if_neg hnotlt]
      have hrep : replacedSlot r d
          = (if d % (r.maxSize + (r.seenBeyond + 1)) < r.maxSize
             then some (d % (r.maxSize + (r.seenBeyond + 1))) else none) := by
        simp only [replacedSlot, if_neg hnotlt]
      rw [hadd, hrep]
      by_cases hslot : d % (r.maxSize + (r.seenBeyond + 1)) < r.maxSize
      · rw [if_pos hslot, if_pos hslot]
      · rw [if_neg hslot, if_neg hslot]

/-- C7 witness: capacity 2, four examples streamed through an initially
empty store. -/
theorem c7_reservoir_bounded_and_replacement_witness :
    (addMany (ExampleReservoir.mk 2 [] 0)
        [((10 : Nat), 0), (11, 1), (12, 2), (13, 3)]).examples.length = 2 ∧
    (addMany (ExampleReservoir.mk 2 [] 0)
        [((10 : Nat), 0), (11, 1), (12, 2), (13, 3)]).seenBeyond = 4 - 2 ∧
    (∀ (r : ExampleReservoir Nat) (x : Nat),
      r.maxSize = 2 → r.examples.length = 2 →
      (∀ d : Nat, (r.add x d).examples.length = 2) ∧
      (∀ d : Nat, (r.add x d).examples
          = (match replacedSlot r d with
             | some i => r.examples.set i x
             | none => r.examples)) ∧
      ((Finset.range (2 + (r.seenBeyond + 1))).filter
          (fun d => (replacedSlot r d).isSome)).card = 2 ∧
      (((Finset.range (2 + (r.seenBeyond + 1))).filter
          (fun d => (replacedSlot r d).isSome)).card : ℚ)
          / (((2 + (r.seenBeyond + 1) : Nat)) : ℚ)
        = ((2 : Nat) : ℚ) / (((2 + (r.seenBeyond + 1) : Nat)) : ℚ)) :=
  c7_reservoir_bounded_and_replacement Nat 2 4 (by decide) (by decide)
    [((10 : Nat), 0), (11, 1), (12, 2), (13, 3)] rfl

lemma foldl_update_not_mem {α : Type} (g : Nat → Nat) (v : Nat → α) (l : List Nat)
    (out : Nat → α) (t : Nat) (h : ∀ j ∈ l, g j ≠ t) :
    (l.foldl (fun o i => Function.update o (g i) (v i)) out) t = out t := by
  induction l generalizing out with
  | nil => rfl
  | cons a rest ih =>
    rw [List.foldl_cons]
    rw [ih (Function.update out (g a) (v a))
      (fun j hj => h j (List.mem_cons_of_mem a hj))]
    exact Function.update_noteq (Ne.symm (h a (List.mem_cons_self a rest))) _ _

lemma foldl_update_mem {α : Type} (g : Nat → Nat) (v : Nat → α) (l : List Nat)
    (out : Nat → α) (i : Nat) (hmem : i ∈ l) (hnd : l.Nodup)
    (hinj : ∀ a ∈ l, ∀ b ∈ l, g a = g b → a = b) :
    (l.foldl (fun o j => Function.update o (g j) (v j)) out) (g i) = v i := by
  induction l generalizing out with
  | nil => cases hmem
  | cons a rest ih =>
    rw [List.foldl_cons]
    rcases List.mem_cons.mp hmem with rfl | hmemr
    · have hne : ∀ j ∈ rest, g j ≠ g i := by
        intro j hj heq
        have hji : j = i :=
          hinj j (List.mem_cons_of_mem i hj) i (List.mem_cons_self i rest) heq
        subst hji
        exact (List.nodup_cons.mp hnd).1 hj
      rw [foldl_update_not_mem g v rest _ (g i) hne]
      rw [Function.update_same]
    · exact ih _ hmemr (List.nodup_cons.mp hnd).2
        (fun a' ha' b' hb' => hinj a' (List.mem_cons_of_mem a ha') b'
          (List.mem_cons_of_mem a hb'))

lemma transpose_mod (w h i : Nat) (hw : 0 < w) (hi : i < w * h) :
    ((i % w) * h + i / w) % h = i / w := by
  have hdivlt : i / w < h := by
    rw [Nat.div_lt_iff_lt_mul hw]
    rw [mul_comm w h] at hi
    exact hi
  rw [mul_comm (i % w) h, Nat.mul_add_mod, Nat.mod_eq_of_lt hdivlt]

lemma transpose_div (w h i : Nat) (hw : 0 < w) (hi : i < w * h) :
    ((i % w) * h + i / w) / h = i % w := by
  have hh : 0 < h := by
    rcases Nat.eq_zero_or_pos h with rfl | hh
    · rw [Nat.mul_zero] at hi
      exact absurd hi (Nat.not_lt_zero i)
    · exact hh
  have hdivlt : i / w < h := by
    rw [Nat.div_lt_iff_lt_mul hw]
    rw [mul_comm w h] at hi
    exact hi
  rw [mul_comm (i % w) h, Nat.mul_add_div hh, Nat.div_eq_of_lt hdivlt,
    Nat.add_zero]

lemma transpose_lt (w h i : Nat) (hw : 0 < w) (hi : i < w * h) :
    (i % w) * h + i / w < w * h := by
  have hmodlt : i % w < w := Nat.mod_lt i hw
  have hdivlt : i / w < h := by
    rw [Nat.div_lt_iff_lt_mul hw]
    rw [mul_comm w h] at hi
    exact hi
  calc (i % w) * h + i / w < (i % w) * h + h := by omega
  _ = (i % w + 1) * h := by ring
  _ ≤ w * h := Nat.mul_le_mul_right h hmodlt

lemma transpose_inj (w h a b : Nat) (hw : 0 < w) (ha : a < w * h) (hb : b < w * h)
    (heq : (a % w) * h + a / w = (b % w) * h + b / w) : a = b := by
  have h1 : a / w = b / w := by
    rw [← transpose_mod w h a hw ha, ← transpose_mod w h b hw hb, heq]
  have h2 : a % w = b % w := by
    rw [← transpose_div w h a hw ha, ← transpose_div w h b hw hb, heq]
  calc a = w * (a / w) + a % w := (Nat.div_add_mod a w).symm
  _ = w * (b / w) + b % w := by rw [h1, h2]
  _ = b := Nat.div_add_mod b w

lemma copy_itm_to_af_apply {α : Type} (w h : Nat) (input out : Nat → α) (i : Nat)
    (hw : 0 < w) (hi : i < w * h) :
    copy_itm_to_af w h input out ((i % w) * h + i / w) = input i :=
  foldl_update_mem (fun j => (j % w) * h + j / w) input (List.range (w * h)) out i
    (List.mem_range.mpr hi) (List.nodup_range (w * h))
    (fun a ha b hb => transpose_inj w h a b hw
      (List.mem_range.mp ha) (List.mem_range.mp hb))

lemma copy_af_to_itm_apply {α : Type} (w h : Nat) (input out : Nat → α) (j : Nat)
    (hh : 0 < h) (hj : j < w * h) :
    copy_af_to_itm w h input out ((j % h) * w + j / h) = input j :=
  foldl_update_mem (fun j => (j % h) * w + j / h) input (List.range (w * h)) out j
    (List.mem_range.mpr hj) (List.nodup_range (w * h))
    (fun a ha b hb => transpose_inj h w a b hh
      (by rw [mul_comm h w]; exact List.mem_range.mp ha)
      (by rw [mul_comm h w]; exact List.mem_range.mp hb))

/-- C8.  The single-channel ITM-to-AF and AF-to-ITM pixel copies are
mutually inverse index transpositions: copying row-major pixel i to the
AF image and then copying the resulting column-major pixel back restores
the value at index i, and copying an entire w-by-h image ITM to AF to
ITM restores the image at every index. -/
theorem c8_copy_roundtrip (α : Type) (w h : Nat) (hw : 0 < w) (hh : 0 < h)
    (i : Nat) (hi : i < w * h) (img out1 out2 : Nat → α) :
    (copy_af_pixel_to_itm ((i % w) * h + i / w)
        (copy_itm_pixel_to_af i img w h out1) w h out2) i = img i ∧
    copy_af_to_itm w h (copy_itm_to_af w h img out1) out2 i = img i := by
  have hmod := transpose_mod w h i hw hi
  have hdiv := transpose_div w h i hw hi
  have hidx : (i / w) * w + i % w = i := by
    rw [mul_comm]
    exact Nat.div_add_mod i w
  constructor
  · simp only [copy_af_pixel_to_itm, copy_itm_pixel_to_af]
    rw [hmod, hdiv, hidx]
    rw [Function.update_same, Function.update_same]
  · have happ := copy_af_to_itm_apply w h (copy_itm_to_af w h img out1) out2
      ((i % w) * h + i / w) hh (transpose_lt w h i hw hi)
    rw [hmod, hdiv, hidx] at happ
    rw [happ]
    exact copy_itm_to_af_apply w h img out1 i hw hi

/-- C8 witness: a 2-by-3 image, index 4, with concrete contents. -/
theorem c8_copy_roundtrip_witness :
    (copy_af_pixel_to_itm ((4 % 2) * 3 + 4 / 2)
        (copy_itm_pixel_to_af 4 (fun k => k + 100) 2 3 (fun _ => 0)) 2 3
        (fun _ => (0 : Nat))) 4 = (fun k => k + 100) 4 ∧
    copy_af_to_itm 2 3 (copy_itm_to_af 2 3 (fun k => k + 100) (fun _ => 0))
        (fun _ => (0 : Nat)) 4 = (fun k : Nat => k + 100) 4 :=
  c8_copy_roundtrip Nat 2 3 (by decide) (by decide) 4 (by decide)
    (fun k => k + 100) (fun _ => 0) (fun _ => 0)

lemma list_sum_nonpos (l : List ℝ) (h : ∀ x ∈ l, x ≤ 0) : l.sum ≤ 0 := by
  induction l with
  | nil => simp
  | cons a rest ih =>
    rw [List.sum_cons]
    have ha := h a (List.mem_cons_self a rest)
    have hr := ih (fun x hx => h x (List.mem_cons_of_mem a hx))
    linarith

lemma list_sum_nonpos_all_zero (l : List ℝ) (h : ∀ x ∈ l, x ≤ 0)
    (hz : l.sum = 0) : ∀ x ∈ l, x = 0 := by
  induction l with
  | nil => intro x hx; simp at hx
  | cons a rest ih =>
    rw [List.sum_cons] at hz
    have ha := h a (List.mem_cons_self a rest)
    have hrle := list_sum_nonpos rest (fun x hx => h x (List.mem_cons_of_mem a hx))
    have ha0 : a = 0 := by linarith
    have hr0 : rest.sum = 0 := by linarith
    intro x hx
    rcases List.mem_cons.mp hx with rfl | hxr
    · exact ha0
    · exact ih (fun y hy => h y (List.mem_cons_of_mem a hy)) hr0 x hxr

lemma calculate_entropy_eq (p : ProbabilityMassFunction) :
    calculate_entropy p = -((p.masses.map (fun x => entropyTerm x.2)).sum) := rfl

lemma entropyTerm_nonpos (m : ℚ) (h0 : 0 ≤ m) (h1 : m ≤ 1) : entropyTerm m ≤ 0 := by
  rw [entropyTerm]
  by_cases hm : (0 : ℚ) < m
  · rw [if_pos hm]
    have hm0 : (0 : ℝ) ≤ (m : ℝ) := by exact_mod_cast h0
    have hm1 : (m : ℝ) ≤ 1 := by exact_mod_cast h1
    have hlog : Real.logb 2 (m : ℝ) ≤ 0 :=
      Real.logb_nonpos (by norm_num) hm0 hm1
    exact mul_nonpos_iff.mpr (Or.inl ⟨hm0, hlog⟩)
  · rw [if_neg hm]

lemma entropyTerm_eq_zero_iff (m : ℚ) (h0 : 0 ≤ m) :
    entropyTerm m = 0 ↔ m = 0 ∨ m = 1 := by
  rw [entropyTerm]
  by_cases hm : (0 : ℚ) < m
  · rw [if_pos hm]
    have hm' : (0 : ℝ) < (m : ℝ) := by exact_mod_cast hm
    constructor
    · intro hz
      rcases mul_eq_zero.mp hz with hc | hc
      · exfalso
        rw [hc] at hm'
        exact lt_irrefl 0 hm'
      · rcases Real.logb_eq_zero.mp hc with h' | h' | h' | h' | h' | h'
        · norm_num at h'
        · norm_num at h'
        · norm_num at h'
        · exfalso; rw [h'] at hm'; exact lt_irrefl 0 hm'
        · right; exact_mod_cast h'
        · exfalso; rw [h'] at hm'; norm_num at hm'
    · rintro (rfl | rfl)
      · exfalso; exact lt_irrefl 0 hm
      · norm_num
  · rw [if_neg hm]
    have : m = 0 := le_antisymm (not_lt.mp hm) h0
    simp [this]

lemma log_two_pos : (0 : ℝ) < Real.log 2 := Real.log_pos (by norm_num)

lemma logb_two_three_lt : Real.logb 2 3 < 793 / 500 := by
  have hkey : ((3 : ℕ) ^ 500 : ℕ) < 2 ^ 793 := by norm_num
  have hkeyr : (3 : ℝ) ^ 500 < 2 ^ 793 := by exact_mod_cast hkey
  have hlt : Real.log ((3 : ℝ) ^ 500) < Real.log ((2 : ℝ) ^ 793) :=
    Real.log_lt_log (by positivity) hkeyr
  rw [Real.log_pow, Real.log_pow] at hlt
  push_cast at hlt
  rw [Real.logb, div_lt_iff₀ log_two_pos]
  linarith

lemma logb_two_three_gt : (1981 : ℝ) / 1250 < Real.logb 2 3 := by
  have hkey : ((2 : ℕ) ^ 1981 : ℕ) < 3 ^ 1250 := by norm_num
  have hkeyr : (2 : ℝ) ^ 1981 < 3 ^ 1250 := by exact_mod_cast hkey
  have hlt : Real.log ((2 : ℝ) ^ 1981) < Real.log ((3 : ℝ) ^ 1250) :=
    Real.log_lt_log (by positivity) hkeyr
  rw [Real.log_pow, Real.log_pow] at hlt
  push_cast at hlt
  rw [Real.logb, lt_div_iff₀ log_two_pos]
  linarith

lemma logb_two_four : Real.logb 2 (4 : ℝ) = 2 := by
  rw [show (4 : ℝ) = 2 ^ (2 : ℕ) by norm_num, Real.logb_pow,
    Real.logb_self_eq_one (by norm_num)]
  norm_num

lemma entropy_three_quarters_one_quarter :
    calculate_entropy (ProbabilityMassFunction.mk [(0, 3/4), (1, 1/4)])
      = 2 - (3 / 4) * Real.logb 2 3 := by
  rw [calculate_entropy_eq]
  simp only [List.map_cons, List.map_nil, List.sum_cons, List.sum_nil]
  rw [entropyTerm, if_pos (by norm_num : (0 : ℚ) < 3/4)]
  rw [entropyTerm, if_pos (by norm_num : (0 : ℚ) < 1/4)]
  have hc1 : (((3 : ℚ)/4 : ℚ) : ℝ) = 3/4 := by norm_num
  have hc2 : (((1 : ℚ)/4 : ℚ) : ℝ) = 1/4 := by norm_num
  rw [hc1, hc2]
  have h34 : Real.logb 2 ((3 : ℝ)/4) = Real.logb 2 3 - 2 := by
    rw [Real.logb_div (by norm_num) (by norm_num), logb_two_four]
  have h14 : Real.logb 2 ((1 : ℝ)/4) = -2 := by
    rw [one_div, Real.logb_inv, logb_two_four]
  rw [h34, h14]
  ring

/-- C6.  End to end: the histogram with bins (label 0, count 3) and
(label 1, count 1) and total 4 yields the PMF with masses 0.75 and 0.25,
whose entropy is approximately 0.811 bits (within 0.001). -/
theorem c6_end_to_end_histogram_pmf_entropy :
    makePMF (Histogram.mk [(0, 3), (1, 1)] 4)
      = some (ProbabilityMassFunction.mk [(0, 3/4), (1, 1/4)]) ∧
    |calculate_entropy (ProbabilityMassFunction.mk [(0, 3/4), (1, 1/4)])
      - 811 / 1000| < 1 / 1000 := by
  constructor
  · norm_num [makePMF, computeMasses, SMALL_EPSILON]
  · rw [entropy_three_quarters_one_quarter]
    rw [abs_lt]
    constructor
    · have := logb_two_three_lt
      linarith
    · have := logb_two_three_gt
      linarith

/-- C1.  The claim as frozen is refuted by the code: a histogram whose
bins all have positive counts summing to the (positive) total can still
drive a mass below SMALL_EPSILON, at which point the constructor's
assertion fires and no PMF is produced at all.  Concretely, the
histogram with bins (0 with count 1, 1 with count 9999999999) and total
10000000000 gives label 0 the mass 1e-10 < 1e-9. -/
theorem c1_pmf_construction_counterexample :
    0 < (Histogram.mk [(0, 1), (1, 9999999999)] 10000000000).count ∧
    countSum (Histogram.mk [(0, 1), (1, 9999999999)] 10000000000)
      = (Histogram.mk [(0, 1), (1, 9999999999)] 10000000000).count ∧
    makePMF (Histogram.mk [(0, 1), (1, 9999999999)] 10000000000) = none := by
  refine ⟨by norm_num, by norm_num [countSum], ?_⟩
  norm_num [makePMF, computeMasses, SMALL_EPSILON]

/-- C1 (amended).  For every histogram with a positive total count whose
per-label counts sum to that total and whose every bin has empirical
mass at least SMALL_EPSILON, the constructor succeeds and assigns each
label the mass count(label) / total(); the masses sum to exactly 1
(hence to 1 within 1e-6) and every mass is strictly positive. -/
theorem c1_pmf_construction_amended (h : Histogram) (hpos : 0 < h.count)
    (hsum : countSum h = h.count)
    (heps : ∀ bin ∈ h.bins, SMALL_EPSILON ≤ (bin.2 : ℚ) / (h.count : ℚ)) :
    ∃ p, makePMF h = some p ∧
      p.masses = h.bins.map (fun b => (b.1, (b.2 : ℚ) / (h.count : ℚ))) ∧
      massSum p = 1 ∧ |massSum p - 1| ≤ 1 / 1000000 ∧
      ∀ x ∈ p.masses, 0 < x.2 := by
  have hcq : ((h.count : Nat) : ℚ) ≠ 0 := Nat.cast_ne_zero.mpr hpos.ne'
  have hsum' : (h.bins.map (fun b => b.2)).sum = h.count := hsum
  have hmass : massSum (ProbabilityMassFunction.mk
      (h.bins.map (fun b => (b.1, (b.2 : ℚ) / (h.count : ℚ))))) = 1 := by
    rw [massSum_mk_map, hsum']
    exact div_self hcq
  refine ⟨ProbabilityMassFunction.mk
      (h.bins.map (fun b => (b.1, (b.2 : ℚ) / (h.count : ℚ)))), ?_, rfl, hmass, ?_, ?_⟩
  · rw [makePMF, computeMasses_eq_some h.count h.bins heps]
    rfl
  · rw [hmass]
    norm_num
  · intro x hx
    obtain ⟨b, hb, rfl⟩ := List.mem_map.mp hx
    calc (0 : ℚ) < SMALL_EPSILON := by norm_num [SMALL_EPSILON]
    _ ≤ (b.2 : ℚ) / (h.count : ℚ) := heps b hb

/-- C1 witness: the amended construction theorem applied to the histogram
with bins (0, count 2) and (1, count 2), total 4. -/
theorem c1_pmf_construction_amended_witness :
    ∃ p, makePMF (Histogram.mk [(0, 2), (1, 2)] 4) = some p ∧
      p.masses = (Histogram.mk [(0, 2), (1, 2)] 4).bins.map
        (fun b => (b.1, (b.2 : ℚ) / ((Histogram.mk [(0, 2), (1, 2)] 4).count : ℚ))) ∧
      massSum p = 1 ∧ |massSum p - 1| ≤ 1 / 1000000 ∧
      ∀ x ∈ p.masses, 0 < x.2 :=
  c1_pmf_construction_amended (Histogram.mk [(0, 2), (1, 2)] 4) (by norm_num)
    rfl (by norm_num [SMALL_EPSILON])

/-- C3.  A histogram whose total count is 0 (and whose bin counts sum to
that total, per the data-model invariant) never yields a well-defined
PMF: construction fails outright whenever the histogram has any bin, any
successful construction carries an empty mass map, and in no case does a
constructed PMF have masses summing to 1. -/
theorem c3_zero_total_not_well_defined (h : Histogram) (hc : h.count = 0)
    (hsum : countSum h = h.count) :
    (h.bins ≠ [] → makePMF h = none) ∧
    (∀ p, makePMF h = some p → p.masses = []) ∧
    ¬ ∃ p, makePMF h = some p ∧ massSum p = 1 := by
  match hbins : h.bins with
  | [] =>
    have hres : makePMF h = some (ProbabilityMassFunction.mk []) := by
      rw [makePMF, hbins]
      rfl
    refine ⟨fun hne => absurd rfl hne, ?_, ?_⟩
    · intro p hp
      rw [hres] at hp
      cases hp
      rfl
    · rintro ⟨p, hp, hone⟩
      rw [hres] at hp
      cases hp
      simp [massSum] at hone
  | b :: rest =>
    have hb0 : b.2 = 0 := by
      have hz : (h.bins.map (fun x => x.2)).sum = 0 := by
        have : countSum h = 0 := hsum.trans hc
        exact this
      rw [hbins] at hz
      simp only [List.map_cons, List.sum_cons, Nat.add_eq_zero] at hz
      exact hz.1
    have hnone : makePMF h = none := by
      rw [makePMF, hbins, computeMasses_eq_none]
      · rfl
      · exact ⟨b, List.mem_cons_self b rest, by
          rw [hb0]
          norm_num [SMALL_EPSILON]⟩
    refine ⟨fun _ => hnone, ?_, ?_⟩
    · intro p hp
      rw [hnone] at hp
      cases hp
    · rintro ⟨p, hp, _⟩
      rw [hnone] at hp
      cases hp

/-- C3 witness: the degenerate histogram with one empty bin and total 0. -/
theorem c3_zero_total_not_well_defined_witness :
    ((Histogram.mk [(0, 0)] 0).bins ≠ [] →
      makePMF (Histogram.mk [(0, 0)] 0) = none) ∧
    (∀ p, makePMF (Histogram.mk [(0, 0)] 0) = some p → p.masses = []) ∧
    ¬ ∃ p, makePMF (Histogram.mk [(0, 0)] 0) = some p ∧ massSum p = 1 :=
  c3_zero_total_not_well_defined (Histogram.mk [(0, 0)] 0) rfl rfl

/-- C4.  The constructor's assertion mass >= SMALL_EPSILON: whenever
every bin's empirical mass is at least 1e-9 the assertion never fires
and construction succeeds, and whenever some bin's empirical mass falls
below 1e-9 construction fails at the assertion instead of producing a
PMF.  The histogram is assumed to satisfy the data-model invariant that
its bin counts sum to its total. -/
theorem c4_small_epsilon_assertion (h : Histogram) (hsum : countSum h = h.count) :
    ((∀ bin ∈ h.bins, SMALL_EPSILON ≤ (bin.2 : ℚ) / (h.count : ℚ)) →
      (makePMF h).isSome) ∧
    ((∃ bin ∈ h.bins, (bin.2 : ℚ) / (h.count : ℚ) < SMALL_EPSILON) →
      makePMF h = none) := by
  constructor
  · intro heps
    rw [makePMF, computeMasses_eq_some h.count h.bins heps]
    rfl
  · intro hbad
    rw [makePMF, computeMasses_eq_none h.count h.bins hbad]
    rfl

/-- C4 witness: the assertion passes on the histogram with bins of counts
1 and 1 and total 2, and fires on the histogram with bin counts 1 and
9999999999 and total 10000000000, whose first mass is 1e-10. -/
theorem c4_small_epsilon_assertion_witness :
    (makePMF (Histogram.mk [(0, 1), (1, 1)] 2)).isSome ∧
    makePMF (Histogram.mk [(0, 1), (1, 9999999999)] 10000000000) = none :=
  ⟨(c4_small_epsilon_assertion (Histogram.mk [(0, 1), (1, 1)] 2) rfl).1
      (by norm_num [SMALL_EPSILON]),
   (c4_small_epsilon_assertion (Histogram.mk [(0, 1), (1, 9999999999)] 10000000000)
      rfl).2 ⟨(0, 1), List.mem_cons_self _ _, by norm_num [SMALL_EPSILON]⟩⟩

/-- C2.  calculate_entropy computes H = -sum of mass * log2 mass over the
labels, with any zero-probability term contributing 0; on a PMF (all
masses non-negative, summing to 1) the result is non-negative, and it is
0 exactly when a single label carries mass 1. -/
theorem c2_entropy_properties (p : ProbabilityMassFunction)
    (hpos : ∀ x ∈ p.masses, 0 ≤ x.2) (hsum : massSum p = 1) :
    calculate_entropy p
        = -((p.masses.map (fun x => (x.2 : ℝ) * Real.logb 2 (x.2 : ℝ))).sum) ∧
    0 ≤ calculate_entropy p ∧
    (calculate_entropy p = 0 ↔ ∃ x ∈ p.masses, x.2 = 1) := by
  have hle1 : ∀ x ∈ p.masses, x.2 ≤ 1 := by
    intro x hx
    have hnn : ∀ m ∈ p.masses.map (fun y => y.2), (0 : ℚ) ≤ m := by
      intro m hm
      obtain ⟨y, hy, rfl⟩ := List.mem_map.mp hm
      exact hpos y hy
    have hone : (p.masses.map (fun y => y.2)).sum = 1 := hsum
    have := List.single_le_sum hnn x.2 (List.mem_map_of_mem _ hx)
    rw [hone] at this
    exact this
  have hterms : ∀ t ∈ p.masses.map (fun x => entropyTerm x.2), t ≤ 0 := by
    intro t ht
    obtain ⟨x, hx, rfl⟩ := List.mem_map.mp ht
    exact entropyTerm_nonpos x.2 (hpos x hx) (hle1 x hx)
  have hconj1 : calculate_entropy p
      = -((p.masses.map (fun x => (x.2 : ℝ) * Real.logb 2 (x.2 : ℝ))).sum) := by
    rw [calculate_entropy_eq]
    have hmaps : p.masses.map (fun x => entropyTerm x.2)
        = p.masses.map (fun x => (x.2 : ℝ) * Real.logb 2 (x.2 : ℝ)) := by
      apply List.map_congr_left
      intro x hx
      rw [entropyTerm]
      by_cases hm : (0 : ℚ) < x.2
      · rw [if_pos hm]
      · rw [if_neg hm]
        have hx0 : x.2 = 0 := le_antisymm (not_lt.mp hm) (hpos x hx)
        rw [hx0]
        simp
    rw [hmaps]
  refine ⟨hconj1, ?_, ?_⟩
  · rw [calculate_entropy_eq]
    have := list_sum_nonpos _ hterms
    linarith
  constructor
  · intro hz
    rw [calculate_entropy_eq] at hz
    have hsum0 : (p.masses.map (fun x => entropyTerm x.2)).sum = 0 := by linarith
    have hall := list_sum_nonpos_all_zero _ hterms hsum0
    by_contra hno
    push_neg at hno
    have hzero : ∀ x ∈ p.masses, x.2 = 0 := by
      intro x hx
      have ht := hall _ (List.mem_map_of_mem _ hx)
      rcases (entropyTerm_eq_zero_iff x.2 (hpos x hx)).mp ht with h0 | h1
      · exact h0
      · exact absurd h1 (hno x hx)
    have hms0 : massSum p = 0 := by
      apply List.sum_eq_zero
      intro m hm
      obtain ⟨y, hy, rfl⟩ := List.mem_map.mp hm
      exact hzero y hy
    exact one_ne_zero (hsum.symm.trans hms0)
  · rintro ⟨x, hx, hx1⟩
    obtain ⟨l₁, l₂, hsplit⟩ := List.append_of_mem hx
    have hn1 : ∀ m ∈ l₁.map (fun y => y.2), (0 : ℚ) ≤ m := by
      intro m hm
      obtain ⟨y, hy, rfl⟩ := List.mem_map.mp hm
      exact hpos y (by rw [hsplit]; exact List.mem_append_left _ hy)
    have hn2 : ∀ m ∈ l₂.map (fun y => y.2), (0 : ℚ) ≤ m := by
      intro m hm
      obtain ⟨y, hy, rfl⟩ := List.mem_map.mp hm
      exact hpos y
        (by rw [hsplit]; exact List.mem_append_right _ (List.mem_cons_of_mem x hy))
    have hS1 : (0 : ℚ) ≤ (l₁.map (fun y => y.2)).sum := List.sum_nonneg hn1
    have hS2 : (0 : ℚ) ≤ (l₂.map (fun y => y.2)).sum := List.sum_nonneg hn2
    have hsum' : (p.masses.map (fun y => y.2)).sum = 1 := hsum
    rw [hsplit] at hsum'
    simp only [List.map_append, List.map_cons, List.sum_append, List.sum_cons] at hsum'
    rw [hx1] at hsum'
    have hS1z : (l₁.map (fun y => y.2)).sum = 0 := by linarith
    have hS2z : (l₂.map (fun y => y.2)).sum = 0 := by linarith
    have hz1 : ∀ m ∈ l₁.map (fun y => y.2), m = 0 :=
      fun m hm => List.all_zero_of_le_zero_le_of_sum_eq_zero hn1 hS1z hm
    have hz2 : ∀ m ∈ l₂.map (fun y => y.2), m = 0 :=
      fun m hm => List.all_zero_of_le_zero_le_of_sum_eq_zero hn2 hS2z hm
    rw [calculate_entropy_eq]
    have : (p.masses.map (fun y => entropyTerm y.2)).sum = 0 := by
      apply List.sum_eq_zero
      intro t ht
      obtain ⟨y, hy, rfl⟩ := List.mem_map.mp ht
      rw [hsplit] at hy
      rcases List.mem_append.mp hy with hy1 | hy2
      · have : y.2 = 0 := hz1 y.2 (List.mem_map_of_mem _ hy1)
        rw [entropyTerm, this]
        norm_num
      · rcases List.mem_cons.mp hy2 with rfl | hy3
        · rw [entropyTerm, hx1]
          norm_num
        · have : y.2 = 0 := hz2 y.2 (List.mem_map_of_mem _ hy3)
          rw [entropyTerm, this]
          norm_num
    rw [this]
    norm_num

/-- C2 witness: the two-label PMF with masses one half each. -/
theorem c2_entropy_properties_witness :
    calculate_entropy (ProbabilityMassFunction.mk [(0, 1/2), (1, 1/2)])
        = -(((ProbabilityMassFunction.mk [(0, 1/2), (1, 1/2)]).masses.map
            (fun x => (x.2 : ℝ) * Real.logb 2 (x.2 : ℝ))).sum) ∧
    0 ≤ calculate_entropy (ProbabilityMassFunction.mk [(0, 1/2), (1, 1/2)]) ∧
    (calculate_entropy (ProbabilityMassFunction.mk [(0, 1/2), (1, 1/2)]) = 0 ↔
      ∃ x ∈ (ProbabilityMassFunction.mk [(0, 1/2), (1, 1/2)]).masses, x.2 = 1) :=
  c2_entropy_properties (ProbabilityMassFunction.mk [(0, 1/2), (1, 1/2)])
    (by
      intro x hx
      rcases List.mem_cons.mp hx with rfl | hx2
      · norm_num
      · rcases List.mem_cons.mp hx2 with rfl | hx3
        · norm_num
        · simp at hx3)
    (by norm_num [massSum])

/-- C5.  Entropy of the degenerate PMF giving a single label mass 1 is
exactly 0, and entropy of the uniform PMF over N labels, each of mass
1/N, equals log2 N. -/
theorem c5_entropy_degenerate_and_uniform :
    (∀ lbl : Nat, calculate_entropy (ProbabilityMassFunction.mk [(lbl, 1)]) = 0) ∧
    (∀ labels : List Nat, 0 < labels.length →
      calculate_entropy (ProbabilityMassFunction.mk
        (labels.map (fun l => (l, (1 : ℚ) / (labels.length : ℚ)))))
        = Real.logb 2 (labels.length : ℝ)) := by
  constructor
  · intro lbl
    rw [calculate_entropy_eq]
    simp [entropyTerm, Real.logb_one]
  · intro labels hN
    rw [calculate_entropy_eq]
    have hNr : (0 : ℝ) < (labels.length : ℝ) := by exact_mod_cast hN
    have hc : (0 : ℚ) < 1 / (labels.length : ℚ) := by
      apply one_div_pos.mpr
      exact_mod_cast hN
    have hmaps : ((labels.map (fun l => (l, (1 : ℚ) / (labels.length : ℚ)))).map
        (fun x => entropyTerm x.2))
        = List.replicate labels.length (entropyTerm ((1 : ℚ) / (labels.length : ℚ))) := by
      rw [List.map_map]
      have hcomp : ((fun x : Nat × ℚ => entropyTerm x.2) ∘
          (fun l : Nat => (l, (1 : ℚ) / (labels.length : ℚ))))
          = fun _ : Nat => entropyTerm ((1 : ℚ) / (labels.length : ℚ)) := rfl
      rw [hcomp, List.map_const']
    rw [hmaps, List.sum_replicate]
    rw [entropyTerm, if_pos hc]
    have hcast : (((1 : ℚ) / (labels.length : ℚ) : ℚ) : ℝ)
        = 1 / (labels.length : ℝ) := by
      push_cast
      ring
    rw [hcast]
    have hlog : Real.logb 2 (1 / (labels.length : ℝ))
        = -Real.logb 2 (labels.length : ℝ) := by
      rw [one_div, Real.logb_inv]
    rw [hlog, nsmul_eq_mul]
    field_simp

/-- C5 witness: a singleton PMF on label 5, and the uniform PMF over the
four labels 0, 1, 2, 3, whose entropy is log2 4. -/
theorem c5_entropy_degenerate_and_uniform_witness :
    calculate_entropy (ProbabilityMassFunction.mk [(5, 1)]) = 0 ∧
    calculate_entropy (ProbabilityMassFunction.mk
        ([0, 1, 2, 3].map (fun l => (l, (1 : ℚ) / (([0, 1, 2, 3] : List Nat).length : ℚ)))))
      = Real.logb 2 (([0, 1, 2, 3] : List Nat).length : ℝ) :=
  ⟨c5_entropy_degenerate_and_uniform.1 5,
   c5_entropy_degenerate_and_uniform.2 [0, 1, 2, 3] (by decide)⟩


/-- C9.  calculate_pixel_depth_difference writes the transposed
column-major index col * h + row (row = i / w, col = i mod w) with the
absolute difference of the two input pixels when both are non-negative
and with -1 when either is negative, and writes no other output
element.  The inputs, being separate pure values in this embedding, are
untouched. -/
theorem c9_pixel_depth_difference (w h i : Nat) (hw : 0 < w) (hi : i < w * h)
    (firstInputData secondInputData outputData : Nat → ℚ) :
    (calculate_pixel_depth_difference i firstInputData secondInputData w h
        outputData) ((i % w) * h + i / w)
      = (if 0 ≤ firstInputData i ∧ 0 ≤ secondInputData i
         then |firstInputData i - secondInputData i| else -1) ∧
    ∀ j, j ≠ (i % w) * h + i / w →
      (calculate_pixel_depth_difference i firstInputData secondInputData w h
          outputData) j = outputData j := by
  constructor
  · simp only [calculate_pixel_depth_difference]
    rw [Function.update_same]
  · intro j hj
    simp only [calculate_pixel_depth_difference]
    exact Function.update_noteq hj _ _

/-- C9 witness: a 2-by-2 image at row-major index 1, with constant input
images of depths 5 and 3. -/
theorem c9_pixel_depth_difference_witness :
    (calculate_pixel_depth_difference 1 (fun _ => 5) (fun _ => 3) 2 2
        (fun _ => 0)) ((1 % 2) * 2 + 1 / 2)
      = (if (0 : ℚ) ≤ 5 ∧ (0 : ℚ) ≤ 3 then |(5 : ℚ) - 3| else -1) ∧
    (calculate_pixel_depth_difference 1 (fun _ => 5) (fun _ => 3) 2 2
        (fun _ => 0)) 0 = 0 :=
  ⟨(c9_pixel_depth_difference 2 2 1 (by decide) (by decide)
      (fun _ => 5) (fun _ => 3) (fun _ => 0)).1,
   (c9_pixel_depth_difference 2 2 1 (by decide) (by decide)
      (fun _ => 5) (fun _ => 3) (fun _ => 0)).2 0 (by decide)⟩

/-- C10.  set_pixel_on_threshold writes only outputData at pixelIndex:
every other element is unchanged; under CO_GREATER the written value is
value when the input pixel exceeds the threshold and the input pixel
itself otherwise; under CO_LESS symmetrically with the comparison
reversed; and under any other operator value nothing at all is written,
so even the pixel at pixelIndex keeps its previous output value. -/
theorem c10_set_pixel_on_threshold (pixelIndex : Nat) (inputData : Nat → ℚ)
    (op : Nat) (threshold value : ℚ) (outputData : Nat → ℚ) :
    (∀ j, j ≠ pixelIndex →
      set_pixel_on_threshold pixelIndex inputData op threshold value outputData j
        = outputData j) ∧
    (op = CO_GREATER →
      set_pixel_on_threshold pixelIndex inputData op threshold value outputData
          pixelIndex
        = (if threshold < inputData pixelIndex then value
           else inputData pixelIndex)) ∧
    (op = CO_LESS →
      set_pixel_on_threshold pixelIndex inputData op threshold value outputData
          pixelIndex
        = (if inputData pixelIndex < threshold then value
           else inputData pixelIndex)) ∧
    (op ≠ CO_GREATER → op ≠ CO_LESS →
      set_pixel_on_threshold pixelIndex inputData op threshold value outputData
          pixelIndex
        = outputData pixelIndex) := by
  refine ⟨?_, ?_, ?_, ?_⟩
  · intro j hj
    simp only [set_pixel_on_threshold]
    split_ifs <;> first
      | rfl
      | exact Function.update_noteq hj _ _
  · intro hop
    simp only [set_pixel_on_threshold, if_pos hop]
    rw [Function.update_same]
  · intro hop
    have hne : op ≠ CO_GREATER := by
      rw [hop]
      decide
    simp only [set_pixel_on_threshold, if_neg hne, if_pos hop]
    rw [Function.update_same]
  · intro h1 h2
    simp only [set_pixel_on_threshold, if_neg h1, if_neg h2]

/-- C10 witness: pixel 0 of a constant-5 input, threshold 3, write value
9, previous output 7: the frame pixel 1, the CO_GREATER write, the
CO_LESS write, and an out-of-range operator leaving the pixel alone. -/
theorem c10_set_pixel_on_threshold_witness :
    (set_pixel_on_threshold 0 (fun _ => 5) CO_GREATER 3 9 (fun _ => 7)) 1 = 7 ∧
    (set_pixel_on_threshold 0 (fun _ => 5) CO_GREATER 3 9 (fun _ => 7)) 0
      = (if (3 : ℚ) < 5 then (9 : ℚ) else 5) ∧
    (set_pixel_on_threshold 0 (fun _ => 5) CO_LESS 3 9 (fun _ => 7)) 0
      = (if (5 : ℚ) < 3 then (9 : ℚ) else 5) ∧
    (set_pixel_on_threshold 0 (fun _ => 5) 2 3 9 (fun _ => 7)) 0 = 7 :=
  ⟨(c10_set_pixel_on_threshold 0 (fun _ => 5) CO_GREATER 3 9 (fun _ => 7)).1 1
      (by decide),
   (c10_set_pixel_on_threshold 0 (fun _ => 5) CO_GREATER 3 9 (fun _ => 7)).2.1 rfl,
   (c10_set_pixel_on_threshold 0 (fun _ => 5) CO_LESS 3 9 (fun _ => 7)).2.2.1 rfl,
   (c10_set_pixel_on_threshold 0 (fun _ => 5) 2 3 9 (fun _ => 7)).2.2.2
      (by decide) (by decide)⟩
